import Mathlib

/-!
Verification of the OxidizeBot chat-session engine (`bot/src/irc.rs` and
`bot/src/db/aliases.rs`) against its natural-language specification.

Strings are modelled as lists of Unicode characters (`Str := List Char`);
Rust's byte-oriented `str::len` and `is_char_boundary` are recovered through
the UTF-8 byte size of each character.
-/

set_option maxHeartbeats 1000000

namespace OxidizeBot

/-- A string, modelled as the list of its Unicode scalar values. -/
abbrev Str := List Char

/-- Number of bytes in the UTF-8 encoding of a character (Rust `char::len_utf8`). -/
def utf8Size (c : Char) : Nat :=
  if c.toNat < 0x80 then 1
  else if c.toNat < 0x800 then 2
  else if c.toNat < 0x10000 then 3
  else 4

/-- `utf8Size` is at least 1. -/
theorem utf8Size_pos (c : Char) : 1 ≤ utf8Size c := by
  unfold utf8Size
  split <;> [exact le_refl 1; split <;> [omega; split <;> omega]]

/-- Byte length of a string (Rust `str::len`). -/
def blen (s : Str) : Nat := (s.map utf8Size).sum

theorem blen_nil : blen [] = 0 := rfl

theorem blen_cons (c : Char) (s : Str) : blen (c :: s) = utf8Size c + blen s := by
  simp [blen]

theorem blen_append (s t : Str) : blen (s ++ t) = blen s + blen t := by
  simp [blen]

/-- The byte offsets of the character boundaries of `s`
(the offsets at which Rust `str::is_char_boundary` holds). -/
def boundaries : Str → List Nat
  | [] => [0]
  | c :: cs => 0 :: (boundaries cs).map (· + utf8Size c)

/-- Rust `str::is_char_boundary` on byte offset `i`. -/
def isBoundary (s : Str) (i : Nat) : Bool := i ∈ boundaries s

/-- Offset 0 is always a character boundary. -/
theorem isBoundary_zero (s : Str) : isBoundary s 0 = true := by
  cases s <;> simp [isBoundary, boundaries]

/-- The longest prefix of `s` whose byte length is at most `budget`.
This is the prefix selected by the truncation loop in
`PartitionResponse::next`, which starts at byte index
`min (blen s) budget` and decrements until it reaches a character
boundary: since byte offsets of prefixes are strictly increasing, that
index is exactly the byte length of this prefix. -/
def prefixUpTo : Str → Nat → Str
  | [], _ => []
  | c :: cs, budget =>
    if utf8Size c ≤ budget then c :: prefixUpTo cs (budget - utf8Size c) else []

theorem blen_prefixUpTo_le (s : Str) (budget : Nat) :
    blen (prefixUpTo s budget) ≤ budget := by
  induction s generalizing budget with
  | nil => simp [prefixUpTo, blen]
  | cons c cs ih =>
    simp only [prefixUpTo]
    split
    · rename_i h
      rw [blen_cons]
      have := ih (budget - utf8Size c)
      omega
    · simp [blen]

theorem prefixUpTo_of_blen_le (s : Str) (budget : Nat) (h : blen s ≤ budget) :
    prefixUpTo s budget = s := by
  induction s generalizing budget with
  | nil => simp [prefixUpTo]
  | cons c cs ih =>
    rw [blen_cons] at h
    simp only [prefixUpTo]
    rw [if_pos (by omega)]
    rw [ih (budget - utf8Size c) (by omega)]

/-- The byte length of `prefixUpTo s budget` is a character boundary of `s`. -/
theorem isBoundary_blen_prefixUpTo (s : Str) (budget : Nat) :
    isBoundary s (blen (prefixUpTo s budget)) = true := by
  induction s generalizing budget with
  | nil => simp [prefixUpTo, isBoundary, boundaries, blen]
  | cons c cs ih =>
    simp only [prefixUpTo]
    split
    · rename_i h
      rw [blen_cons]
      simp only [isBoundary, boundaries, List.mem_cons, List.mem_map,
        decide_eq_true_eq]
      right
      refine ⟨blen (prefixUpTo cs (budget - utf8Size c)), ?_, by omega⟩
      have := ih (budget - utf8Size c)
      simpa [isBoundary, decide_eq_true_eq] using this
    · simp [blen, isBoundary, boundaries]

/-- If `budget` is itself a character boundary of `s` and does not exceed the
byte length of `s`, then the selected prefix has byte length exactly `budget`. -/
theorem blen_prefixUpTo_of_isBoundary (s : Str) (budget : Nat)
    (hb : isBoundary s budget = true) :
    blen (prefixUpTo s budget) = min budget (blen s) := by
  induction s generalizing budget with
  | nil =>
    simp only [isBoundary, boundaries, List.mem_singleton, decide_eq_true_eq] at hb
    simp [prefixUpTo, blen, hb]
  | cons c cs ih =>
    simp only [isBoundary, boundaries, List.mem_cons, List.mem_map,
      decide_eq_true_eq] at hb
    rcases hb with h0 | ⟨j, hj, hji⟩
    · subst h0
      simp only [prefixUpTo]
      rw [if_neg (by have := utf8Size_pos c; omega)]
      simp [blen]
    · subst hji
      simp only [prefixUpTo]
      rw [if_pos (by omega)]
      rw [blen_cons, blen_cons]
      have hj' : isBoundary cs j = true := by simpa [isBoundary] using hj
      have := ih j hj'
      have h2 : j + utf8Size c - utf8Size c = j := by omega
      rw [h2] at *
      omega

/-- Whitespace characters, as recognised by the tokenisers.
`Modelled from the spec:` the engine's `utils::Words`/`utils::TrimmedWords`
helpers and Rust's `str::trim` split and trim on whitespace; we model the
common ASCII whitespace characters. -/
def isWs (c : Char) : Bool := c = ' ' || c = '\t' || c = '\n' || c = '\r'

/-- Rust `str::trim_start`. -/
def trimStart (s : Str) : Str := s.dropWhile isWs

/-- Rust `str::trim_end`. -/
def trimEnd (s : Str) : Str := (s.reverse.dropWhile isWs).reverse

/-- Rust `str::trim`. -/
def trim (s : Str) : Str := trimEnd (trimStart s)

/-- Rust `str::split(sep)`: split on every occurrence of `sep`;
a string with no separator yields one fragment, and `n` separators yield
`n + 1` fragments (possibly empty). -/
def splitOnChar (sep : Char) : Str → List Str
  | [] => [[]]
  | c :: cs =>
    let r := splitOnChar sep cs
    if c = sep then [] :: r else (c :: r.headD []) :: r.tail

/-- Rust `str::trim_end_matches('.')`: remove every trailing `'.'`. -/
def dropTrailingDots (s : Str) : Str := (s.reverse.dropWhile (· = '.')).reverse

/-- ASCII lower-casing of a character (Rust `str::to_lowercase` restricted to
the ASCII range, which is all the engine compares). -/
def lowerChar (c : Char) : Char := c.toLower

/-- Lower-case a string. -/
def lowerStr (s : Str) : Str := s.map lowerChar

/-- The leading whitespace-delimited token of a message.
`Modelled from the spec:` `utils::Words` (not part of the provided sources)
yields the leading whitespace-delimited token, per §4.4. -/
def firstToken (s : Str) : Str := (trimStart s).takeWhile (fun c => !isWs c)

/-- The rest of the message after the leading token.
`Modelled from the spec:` `utils::Words::rest` yields the remainder of the
message after the leading token. -/
def restAfterFirst (s : Str) : Str :=
  trimStart ((trimStart s).dropWhile (fun c => !isWs c))

/-- Shorthand to write string literals as `Str`. -/
def str (s : String) : Str := s.data

/-!  ## Principals, roles and scopes (`irc.rs`, `RealUser` / `User`)  -/

/-- A named permission (`auth::Scope` is not part of the provided sources);
the one scope `irc.rs` names, `ChatBypassUrlWhitelist`, is distinguished and
all others are abstract. -/
inductive Scope where
  | chatBypassUrlWhitelist
  | other (n : Nat)
deriving DecidableEq

/-- A derived trust category (`auth::Role`), as pushed by `RealUser::roles`. -/
inductive Role where
  | streamer
  | moderator
  | subscriber
  | vip
  | everyone
deriving DecidableEq

/-- Tags parsed from an inbound line (struct `Tags` in `irc.rs`). -/
structure Tags where
  id : Option Str := none
  msg_id : Option Str := none
  display_name : Option Str := none
  user_id : Option Str := none
  color : Option Str := none
  emotes : Option Str := none

/-- `Tags::default()`: every field absent. -/
def Tags.default : Tags := {}

/-- The identity of a Twitch user as the engine sees it (`api::User`):
both a `login` name and a numeric `id`, which are distinct strings. -/
structure TwitchUser where
  login : Str
  id : Str

/-- `Principal` in `irc.rs`: an authenticated remote user or an injected
(internally generated) one. -/
inductive Principal where
  | user (login : Str)
  | injected

/-- Struct `UserInner` in `irc.rs`: the per-message principal together with
the shared session state its role queries read.  The external collaborators
`stream_info::StreamInfo::is_subscriber` and `Auth::test_any` (not part of
the provided sources) are abstracted as function-valued fields. -/
structure UserInner where
  tags : Tags
  principal : Principal
  streamer_login : Str
  moderators : Finset Str
  vips : Finset Str
  is_subscriber_lookup : Str → Bool
  test_any : Scope → Str → List Role → Bool

/-- Struct `User` in `irc.rs` (the `Arc` indirection is immaterial). -/
structure User where
  inner : UserInner

/-- Struct `RealUser` in `irc.rs`: the borrowed view of a real principal. -/
structure RealUser where
  tags : Tags
  login : Str
  streamer_login : Str
  moderators : Finset Str
  vips : Finset Str
  is_subscriber_lookup : Str → Bool
  test_any : Scope → Str → List Role → Bool

/-- `User::real`. -/
def User.real (u : User) : Option RealUser :=
  match u.inner.principal with
  | .user login => some
      { tags := u.inner.tags
        login := login
        streamer_login := u.inner.streamer_login
        moderators := u.inner.moderators
        vips := u.inner.vips
        is_subscriber_lookup := u.inner.is_subscriber_lookup
        test_any := u.inner.test_any }
  | .injected => none

/-- `RealUser::is_streamer`. -/
def RealUser.is_streamer (r : RealUser) : Bool := r.login = r.streamer_login

/-- `RealUser::is_moderator`. -/
def RealUser.is_moderator (r : RealUser) : Bool := r.login ∈ r.moderators

/-- `RealUser::is_subscriber`. -/
def RealUser.is_subscriber (r : RealUser) : Bool :=
  r.is_streamer || r.is_subscriber_lookup r.login

/-- `RealUser::is_vip`. -/
def RealUser.is_vip (r : RealUser) : Bool := r.login ∈ r.vips

/-- `RealUser::roles`: push `Streamer`, `Moderator`, `Subscriber`, `Vip` as
applicable, then always `Everyone`. -/
def RealUser.roles (r : RealUser) : List Role :=
  (if r.is_streamer then [Role.streamer] else []) ++
    (if r.is_moderator then [Role.moderator] else []) ++
    (if r.is_subscriber then [Role.subscriber] else []) ++
    (if r.is_vip then [Role.vip] else []) ++ [Role.everyone]

/-- `RealUser::has_scope`: delegate to `Auth::test_any` over the user's roles. -/
def RealUser.has_scope (r : RealUser) (s : Scope) : Bool :=
  r.test_any s r.login r.roles

/-- `User::is_streamer`: defaults to `true` for an injected principal. -/
def User.is_streamer (u : User) : Bool :=
  (u.real.map RealUser.is_streamer).getD true

/-- `User::is_moderator`: defaults to `true` for an injected principal. -/
def User.is_moderator (u : User) : Bool :=
  (u.real.map RealUser.is_moderator).getD true

/-- `User::roles`: an injected principal gets `Streamer`, `Moderator`,
`Subscriber` and `Vip` (and, as written, not `Everyone`). -/
def User.roles (u : User) : List Role :=
  match u.real with
  | some r => r.roles
  | none => [Role.streamer, Role.moderator, Role.subscriber, Role.vip]

/-- `User::has_scope`: an injected principal has **no** scope. -/
def User.has_scope (u : User) (s : Scope) : Bool :=
  match u.real with
  | some r => r.has_scope s
  | none => false

/-- The `User` value built by `Handler::handle` for an inbound `PRIVMSG`
(`irc.rs` lines 858–869).  Note that the field `streamer_login` is assigned
`self.streamer.user.id` there. -/
def privmsgUser (streamer : TwitchUser) (senderLogin : Str) (tags : Tags)
    (moderators vips : Finset Str) (is_subscriber_lookup : Str → Bool)
    (test_any : Scope → Str → List Role → Bool) : User :=
  { inner :=
      { tags := tags
        principal := .user senderLogin
        streamer_login := streamer.id
        moderators := moderators
        vips := vips
        is_subscriber_lookup := is_subscriber_lookup
        test_any := test_any } }

/-- The `User` value built by `Handler::raw` for a bus-injected command
(`irc.rs` lines 816–833): default tags, injected principal, and
`streamer_login` assigned `self.streamer.user.login`. -/
def injectedUser (streamer : TwitchUser) (moderators vips : Finset Str)
    (is_subscriber_lookup : Str → Bool)
    (test_any : Scope → Str → List Role → Bool) : User :=
  { inner :=
      { tags := Tags.default
        principal := .injected
        streamer_login := streamer.login
        moderators := moderators
        vips := vips
        is_subscriber_lookup := is_subscriber_lookup
        test_any := test_any } }

/-!  ## Command resolution and dispatch (`process_command`, `irc.rs` 544–618)  -/

/-- A registered command handler, reduced to the capability the dispatcher
consults synchronously: its required scope (`command::Handler::scope`).
Execution itself is spawned as a separate task and is tracked only as the
`executed` flag of `CmdResult`. -/
structure CmdHandler where
  scope : Option Scope
deriving DecidableEq

/-- The observable outcome of `process_command`: responses sent
synchronously, whether a handler execution was spawned, whether a script
handler was called, and whether a `Global::Ping` was broadcast. -/
structure CmdResult where
  responses : List Str
  executed : Bool
  scriptExecuted : Bool
  pinged : Bool
deriving DecidableEq

/-- The moderator-specific refusal of `process_command`. -/
def modRefusal : Str := str "You are not allowed to run that command"

/-- The generic refusal of `process_command`. -/
def genRefusal : Str := str "Do you think this is a democracy? LUL"

/-- Handler resolution inside `process_command`: the economy-command alias
first (when the command equals the active currency's command name the
currency handler is chosen), otherwise the handler registry. -/
def resolveHandler (cmd : Str) (currency_command : Option Str)
    (currencyHandler : CmdHandler) (handlers : Str → Option CmdHandler) :
    Option CmdHandler :=
  match currency_command with
  | some name => if cmd = name then some currencyHandler else handlers cmd
  | none => handlers cmd

/-- `process_command` (`irc.rs` lines 544–618): the `ping` built-in, then
handler resolution, the scope check with its two refusal messages, spawned
execution, and the script fallback. -/
def process_command (cmd : Str) (user : User) (currency_command : Option Str)
    (currencyHandler : CmdHandler) (handlers : Str → Option CmdHandler)
    (scripts : Str → Bool) : CmdResult :=
  if cmd = str "ping" then
    { responses := [str "What do you want?"], executed := false,
      scriptExecuted := false, pinged := true }
  else
    match resolveHandler cmd currency_command currencyHandler handlers with
    | some h =>
      match h.scope with
      | some s =>
        if !user.has_scope s then
          if user.is_moderator then
            { responses := [modRefusal], executed := false,
              scriptExecuted := false, pinged := false }
          else
            { responses := [genRefusal], executed := false,
              scriptExecuted := false, pinged := false }
        else
          { responses := [], executed := true,
            scriptExecuted := false, pinged := false }
      | none =>
          { responses := [], executed := true,
            scriptExecuted := false, pinged := false }
    | none =>
      if scripts cmd then
        { responses := [], executed := false,
          scriptExecuted := true, pinged := false }
      else
        { responses := [], executed := false,
          scriptExecuted := false, pinged := false }

/-- C1: for every explicit action command whose resolved handler requires a
scope, a caller whose role set lacks that scope never reaches the handler's
execute function; a moderator receives the moderator-specific refusal, a
non-moderator the distinct generic refusal. -/
theorem C1_unauthorized_never_executes
    (cmd : Str) (user : User) (cc : Option Str) (ch : CmdHandler)
    (handlers : Str → Option CmdHandler) (scripts : Str → Bool)
    (h : CmdHandler) (s : Scope)
    (hping : cmd ≠ str "ping")
    (hres : resolveHandler cmd cc ch handlers = some h)
    (hscope : h.scope = some s)
    (hlacks : user.has_scope s = false) :
    (process_command cmd user cc ch handlers scripts).executed = false ∧
    (process_command cmd user cc ch handlers scripts).scriptExecuted = false ∧
    (process_command cmd user cc ch handlers scripts).responses =
      [if user.is_moderator then modRefusal else genRefusal] ∧
    modRefusal ≠ genRefusal := by
  simp only [process_command, if_neg hping, hres, hscope, hlacks]
  cases hm : user.is_moderator <;> simp [hm, modRefusal, genRefusal, str]

/-- Witness for `C1_unauthorized_never_executes` at a concrete state: the
command `!theme` resolved to a handler requiring an abstract scope, called
by the non-moderator `alice` under an authorizer that grants nothing. -/
theorem C1_witness :
    (process_command (str "theme")
        (privmsgUser ⟨str "owner", str "1"⟩ (str "alice") Tags.default ∅ ∅
          (fun _ => false) (fun _ _ _ => false))
        none ⟨none⟩
        (fun c => if c = str "theme" then some ⟨some (Scope.other 0)⟩ else none)
        (fun _ => false)).executed = false ∧
    (process_command (str "theme")
        (privmsgUser ⟨str "owner", str "1"⟩ (str "alice") Tags.default ∅ ∅
          (fun _ => false) (fun _ _ _ => false))
        none ⟨none⟩
        (fun c => if c = str "theme" then some ⟨some (Scope.other 0)⟩ else none)
        (fun _ => false)).scriptExecuted = false ∧
    (process_command (str "theme")
        (privmsgUser ⟨str "owner", str "1"⟩ (str "alice") Tags.default ∅ ∅
          (fun _ => false) (fun _ _ _ => false))
        none ⟨none⟩
        (fun c => if c = str "theme" then some ⟨some (Scope.other 0)⟩ else none)
        (fun _ => false)).responses =
      [if (privmsgUser ⟨str "owner", str "1"⟩ (str "alice") Tags.default ∅ ∅
          (fun _ => false) (fun _ _ _ => false)).is_moderator
        then modRefusal else genRefusal] ∧
    modRefusal ≠ genRefusal :=
  C1_unauthorized_never_executes (str "theme")
    (privmsgUser ⟨str "owner", str "1"⟩ (str "alice") Tags.default ∅ ∅
      (fun _ => false) (fun _ _ _ => false))
    none ⟨none⟩
    (fun c => if c = str "theme" then some ⟨some (Scope.other 0)⟩ else none)
    (fun _ => false) ⟨some (Scope.other 0)⟩ (Scope.other 0)
    (by decide) (by decide) rfl (by decide)

/-- C2 counterexample: a command injected through the command bus
(`Handler::raw` builds an injected principal) that resolves to a scoped
handler is refused and never executed — even under an authorizer granting
every scope to everyone — because `User::has_scope` returns `false` for an
injected principal.  This falsifies the claim that injected principals
bypass authorization. -/
theorem C2_counterexample :
    (process_command (str "theme")
        (injectedUser ⟨str "owner", str "1"⟩ ∅ ∅ (fun _ => false)
          (fun _ _ _ => true))
        none ⟨none⟩
        (fun c => if c = str "theme" then some ⟨some (Scope.other 0)⟩ else none)
        (fun _ => false)).executed = false ∧
    (process_command (str "theme")
        (injectedUser ⟨str "owner", str "1"⟩ ∅ ∅ (fun _ => false)
          (fun _ _ _ => true))
        none ⟨none⟩
        (fun c => if c = str "theme" then some ⟨some (Scope.other 0)⟩ else none)
        (fun _ => false)).responses = [modRefusal] ∧
    (injectedUser ⟨str "owner", str "1"⟩ ∅ ∅ (fun _ => false)
        (fun _ _ _ => true)).has_scope (Scope.other 0) = false := by
  refine ⟨rfl, rfl, rfl⟩

/-- C2 amended: injected principals do **not** bypass authorization.
`User::has_scope` returns `false` for an injected principal, so any handler
with a required scope refuses an injected command (with the
moderator-specific refusal, since `User::is_moderator` defaults to `true`
for injected principals) and never executes; a handler without a required
scope does execute. -/
theorem C2_injected_is_refused_on_scoped_handlers
    (cmd : Str) (streamer : TwitchUser) (mods vips : Finset Str)
    (sub : Str → Bool) (ta : Scope → Str → List Role → Bool)
    (cc : Option Str) (ch : CmdHandler)
    (handlers : Str → Option CmdHandler) (scripts : Str → Bool)
    (h : CmdHandler)
    (hping : cmd ≠ str "ping")
    (hres : resolveHandler cmd cc ch handlers = some h) :
    (∀ s : Scope,
      (injectedUser streamer mods vips sub ta).has_scope s = false) ∧
    (∀ s : Scope, h.scope = some s →
      (process_command cmd (injectedUser streamer mods vips sub ta) cc ch
          handlers scripts).executed = false ∧
      (process_command cmd (injectedUser streamer mods vips sub ta) cc ch
          handlers scripts).responses = [modRefusal]) ∧
    (h.scope = none →
      (process_command cmd (injectedUser streamer mods vips sub ta) cc ch
          handlers scripts).executed = true) := by
  refine ⟨fun s => rfl, fun s hs => ?_, fun hs => ?_⟩ <;>
    simp [process_command, if_neg hping, hres, hs, User.has_scope, User.real,
      injectedUser, User.is_moderator]

/-- Witness for `C2_injected_is_refused_on_scoped_handlers` at a concrete
state: the injected `!theme` command against a handler requiring a scope. -/
theorem C2_witness :
    (∀ s : Scope,
      (injectedUser ⟨str "owner", str "1"⟩ ∅ ∅ (fun _ => false)
          (fun _ _ _ => true)).has_scope s = false) ∧
    (∀ s : Scope,
      (⟨some (Scope.other 0)⟩ : CmdHandler).scope = some s →
      (process_command (str "theme")
          (injectedUser ⟨str "owner", str "1"⟩ ∅ ∅ (fun _ => false)
            (fun _ _ _ => true))
          none ⟨none⟩
          (fun c => if c = str "theme" then some ⟨some (Scope.other 0)⟩ else none)
          (fun _ => false)).executed = false ∧
      (process_command (str "theme")
          (injectedUser ⟨str "owner", str "1"⟩ ∅ ∅ (fun _ => false)
            (fun _ _ _ => true))
          none ⟨none⟩
          (fun c => if c = str "theme" then some ⟨some (Scope.other 0)⟩ else none)
          (fun _ => false)).responses = [modRefusal]) ∧
    ((⟨some (Scope.other 0)⟩ : CmdHandler).scope = none →
      (process_command (str "theme")
          (injectedUser ⟨str "owner", str "1"⟩ ∅ ∅ (fun _ => false)
            (fun _ _ _ => true))
          none ⟨none⟩
          (fun c => if c = str "theme" then some ⟨some (Scope.other 0)⟩ else none)
          (fun _ => false)).executed = true) :=
  C2_injected_is_refused_on_scoped_handlers (str "theme")
    ⟨str "owner", str "1"⟩ ∅ ∅ (fun _ => false) (fun _ _ _ => true)
    none ⟨none⟩
    (fun c => if c = str "theme" then some ⟨some (Scope.other 0)⟩ else none)
    (fun _ => false) ⟨some (Scope.other 0)⟩ (by decide) rfl

/-- C6: the claim says the streamer role is assigned iff the sender's login
equals the channel owner's login.  `Handler::handle` however builds the
inbound-message principal with `streamer_login: self.streamer.user.id`
(the owner's numeric id, not the login — unlike `Handler::raw`, which uses
the login), so a message from the channel owner (login `"streamer"`, id
`"1234"`) is **not** given the `Streamer` role; with the owner's login in
that field (as the claim states and as `raw` does) the role would be
present. -/
theorem C6_streamer_role_lost_by_privmsg_user :
    ((⟨str "streamer", str "1234"⟩ : TwitchUser).login = str "streamer") ∧
    Role.streamer ∉
      (privmsgUser ⟨str "streamer", str "1234"⟩ (str "streamer") Tags.default
        ∅ ∅ (fun _ => false) (fun _ _ _ => false)).roles ∧
    Role.streamer ∈
      User.roles
        { inner :=
            { tags := Tags.default
              principal := .user (str "streamer")
              streamer_login := str "streamer"
              moderators := ∅
              vips := ∅
              is_subscriber_lookup := fun _ => false
              test_any := fun _ _ _ => false } } := by
  refine ⟨rfl, ?_, ?_⟩ <;> decide

/-!  ## Moderation filter (`Handler::should_be_deleted`, `irc.rs` 633–696)  -/

/-- `User::name`. -/
def User.name (u : User) : Option Str :=
  match u.inner.principal with
  | .user login => some login
  | .injected => none

/-- `User::display_name`: the display-name tag, falling back to the login. -/
def User.display_name (u : User) : Option Str :=
  u.inner.tags.display_name.orElse (fun _ => u.name)

/-- Maximal whitespace-delimited runs of a message.
`Modelled from the spec:` `utils::TrimmedWords` (not part of the provided
sources) tokenizes the message into trimmed words (§4.6). -/
def splitWords : Str → Str → List Str
  | [], cur => if cur = [] then [] else [cur.reverse]
  | c :: cs, cur =>
    if isWs c then
      if cur = [] then splitWords cs [] else cur.reverse :: splitWords cs []
    else splitWords cs (c :: cur)

/-- Trim non-alphanumeric characters from both ends of a word.
`Modelled from the spec:` the "trimmed" part of `utils::TrimmedWords`. -/
def trimWord (w : Str) : Str :=
  ((w.dropWhile (fun c => !c.isAlphanum)).reverse.dropWhile
    (fun c => !c.isAlphanum)).reverse

/-- `utils::TrimmedWords::new(message)` as an eager list.
`Modelled from the spec:` tokenize into trimmed words, per §4.6. -/
def trimmedWords (s : Str) : List Str :=
  ((splitWords s []).map trimWord).filter (· ≠ [])

/-- An entry of the bad-words denylist (`db::Word`), reduced to what the
filter reads: the optional explanation template, rendered against the
caller's display name and the streamer's login and allowed to fail
(`template::Template::render_to_string` returns a `Result`). -/
structure WordEntry where
  why : Option (Option Str → Str → Except Unit Str)

/-- The session state `should_be_deleted` consults.  The denylist tester
(`db::Words::tester`) and the URL parser (`utils::Urls`, yielding the host
of each URL in the message) are external to `irc.rs` and abstracted as
function-valued fields. -/
structure FilterState where
  streamer_login : Str
  bad_words_enabled : Bool
  url_whitelist_enabled : Bool
  tester : Str → Option WordEntry
  whitelisted_hosts : Finset Str
  url_hosts : Str → List Str

/-- `Handler::test_bad_words`: the first trimmed word matched by the tester. -/
def test_bad_words (st : FilterState) (message : Str) : Option WordEntry :=
  (trimmedWords message).findSome? st.tester

/-- `Handler::has_bad_link`: some URL host in the message is absent from the
whitelist. -/
def has_bad_link (st : FilterState) (message : Str) : Bool :=
  (st.url_hosts message).any (fun h => h ∉ st.whitelisted_hosts)

/-- The observable outcome of `Handler::should_be_deleted`: its boolean
result and the explanation responses it sends. -/
structure FilterOutcome where
  deleted : Bool
  responses : List Str
deriving DecidableEq

/-- The URL-whitelist stage of `should_be_deleted`. -/
def url_stage (st : FilterState) (user : User) (message : Str) : FilterOutcome :=
  if !user.has_scope Scope.chatBypassUrlWhitelist
      && st.url_whitelist_enabled && has_bad_link st message then
    ⟨true, []⟩
  else
    ⟨false, []⟩

/-- `Handler::should_be_deleted` (`irc.rs` lines 633–670). -/
def should_be_deleted (st : FilterState) (user : User) (message : Str) :
    FilterOutcome :=
  if user.is_moderator then ⟨false, []⟩
  else if st.bad_words_enabled then
    match test_bad_words st message with
    | some w =>
      match w.why with
      | some tpl =>
        match tpl user.display_name st.streamer_login with
        | .ok why => ⟨true, [why]⟩
        | .error _ => ⟨true, []⟩
      | none => ⟨true, []⟩
    | none => url_stage st user message
  else url_stage st user message

/-- C7 counterexample: a message from the **streamer** (login equal to the
principal's `streamer_login` field, so `is_streamer` is true) who is not in
the moderator set is *not* skipped by the moderation filter: with the
bad-word filter enabled and the message matching the denylist,
`should_be_deleted` returns `true`.  This falsifies the claim that the
filter is skipped for the streamer. -/
theorem C7_counterexample :
    (let user : User :=
      { inner :=
          { tags := Tags.default
            principal := .user (str "owner")
            streamer_login := str "owner"
            moderators := ∅
            vips := ∅
            is_subscriber_lookup := fun _ => false
            test_any := fun _ _ _ => false } }
     let st : FilterState :=
      { streamer_login := str "owner"
        bad_words_enabled := true
        url_whitelist_enabled := false
        tester := fun w => if w = str "heck" then some ⟨none⟩ else none
        whitelisted_hosts := ∅
        url_hosts := fun _ => [] }
     user.is_streamer = true ∧ user.is_moderator = false ∧
       (should_be_deleted st user (str "heck")).deleted = true) := by
  refine ⟨by decide, by decide, rfl⟩

/-- C7 amended: the moderation filter is skipped exactly for callers whose
`User::is_moderator` is true (members of the moderator set, or injected
principals); for them `should_be_deleted` returns `false` and sends nothing,
regardless of the toggles or the message.  The streamer is skipped only by
also being a moderator. -/
theorem C7_moderator_skips_filter
    (st : FilterState) (user : User) (message : Str)
    (hm : user.is_moderator = true) :
    should_be_deleted st user message = ⟨false, []⟩ := by
  simp [should_be_deleted, hm]

/-- Witness for `C7_moderator_skips_filter`: a moderator saying a denylisted
word with every toggle on. -/
theorem C7_witness :
    should_be_deleted
      { streamer_login := str "owner"
        bad_words_enabled := true
        url_whitelist_enabled := true
        tester := fun w => if w = str "heck" then some ⟨none⟩ else none
        whitelisted_hosts := ∅
        url_hosts := fun _ => [str "evil.example"] }
      { inner :=
          { tags := Tags.default
            principal := .user (str "modname")
            streamer_login := str "owner"
            moderators := {str "modname"}
            vips := ∅
            is_subscriber_lookup := fun _ => false
            test_any := fun _ _ _ => false } }
      (str "heck") = ⟨false, []⟩ :=
  C7_moderator_skips_filter _ _ _ (by decide)

/-!  ## Response formatter (`PartitionResponse`, `irc.rs` 1196–1275)  -/

/-- The constant `TAIL` (`"..."`) appended on truncation. -/
def tail3 : Str := str "..."

/-- The outcome of one call to `PartitionResponse::next`: a produced line
together with the items still unconsumed, iterator exhaustion, or a panic
(the unsigned underflow of `self.width - TAIL.len()` when `width < 3`,
which we model as an explicit checked subtraction). -/
inductive NextRes where
  | panic
  | exhausted
  | line (out : Str) (rest : List Str)
deriving DecidableEq

/-- The `for` loop inside `PartitionResponse::next`, with the remaining
items, the current `line_buf` and the running `len` counter (which — unlike
the byte length of `line_buf` — counts a trailing separator after every
accumulated item). -/
def nextAux (width : Nat) (sep : Str) : List Str → Str → Nat → NextRes
  | [], lineBuf, _ => if lineBuf = [] then .exhausted else .line lineBuf []
  | item :: rest, lineBuf, len =>
    if len + blen item ≤ width then
      nextAux width sep rest
        (lineBuf ++ (if 0 < len then sep else []) ++ item)
        (len + blen item + blen sep)
    else if lineBuf = [] then
      if width < 3 then .panic
      else .line (prefixUpTo item (width - 3) ++ tail3) rest
    else .line lineBuf rest

/-- One call to `PartitionResponse::next` (`line_buf` is cleared on entry
and `len` starts at 0). -/
def pnext (width : Nat) (sep : Str) (items : List Str) : NextRes :=
  nextAux width sep items [] 0

/-- When `width ≥ 3`, `next` cannot reach the panicking subtraction, from
any loop state. -/
theorem nextAux_ne_panic (width : Nat) (sep : Str) (hw : 3 ≤ width) :
    ∀ (items : List Str) (lineBuf : Str) (len : Nat),
      nextAux width sep items lineBuf len ≠ .panic := by
  intro items
  induction items with
  | nil =>
    intro lineBuf len
    simp only [nextAux]
    split <;> simp
  | cons item rest ih =>
    intro lineBuf len
    simp only [nextAux]
    split
    · exact ih _ _
    · split
      · rw [if_neg (by omega)]
        simp
      · simp

/-- A produced line strictly consumes items unless the item list was
already empty. -/
theorem nextAux_line_rest_length (width : Nat) (sep : Str) :
    ∀ (items : List Str) (lineBuf : Str) (len : Nat) (out : Str)
      (rest : List Str),
      nextAux width sep items lineBuf len = .line out rest →
      rest.length < items.length ∨ (items = [] ∧ rest = []) := by
  intro items
  induction items with
  | nil =>
    intro lineBuf len out rest h
    simp only [nextAux] at h
    split at h
    · exact absurd h (by simp)
    · right
      exact ⟨rfl, by cases h; rfl⟩
  | cons item items' ih =>
    intro lineBuf len out rest h
    simp only [nextAux] at h
    split at h
    · rcases ih _ _ _ _ h with hlt | ⟨hnil, hrest⟩
      · left
        simpa using Nat.lt_succ_of_lt hlt
      · left
        subst hnil hrest
        simp
    · split at h
      · split at h
        · exact absurd h (by simp)
        · cases h
          left
          simp
      · cases h
        left
        simp

/-- Repeatedly calling `next`, with explicit fuel. -/
inductive LinesRes where
  | panic
  | fuelOut
  | ok (lines : List Str)
deriving DecidableEq

/-- All lines produced by the `PartitionResponse` iterator, driven with
explicit fuel. -/
def linesFuel (width : Nat) (sep : Str) : Nat → List Str → LinesRes
  | 0, _ => .fuelOut
  | fuel + 1, items =>
    match pnext width sep items with
    | .panic => .panic
    | .exhausted => .ok []
    | .line l rest =>
      match linesFuel width sep fuel rest with
      | .ok ls => .ok (l :: ls)
      | r => r

/-- One more unit of fuel than there are items always suffices: the
iteration never runs out of fuel (it ends by exhaustion or panic). -/
theorem linesFuel_ne_fuelOut (width : Nat) (sep : Str) :
    ∀ (fuel : Nat) (items : List Str), items.length < fuel →
      linesFuel width sep fuel items ≠ .fuelOut := by
  intro fuel
  induction fuel with
  | zero => intro items h; omega
  | succ n ih =>
    intro items h
    simp only [linesFuel]
    split
    · simp
    · simp
    · rename_i l rest hline
      have hlr := nextAux_line_rest_length width sep items [] 0 l rest hline
      have hrest : rest.length < n := by
        rcases hlr with hlt | ⟨hnil, hrestnil⟩
        · omega
        · subst hnil
          simp only [pnext, nextAux] at hline
          exact absurd hline (by simp)
      split
      · simp
      · exact ih rest hrest

/-- With `width ≥ 3` the driven iteration never panics either. -/
theorem linesFuel_ne_panic (width : Nat) (sep : Str) (hw : 3 ≤ width) :
    ∀ (fuel : Nat) (items : List Str),
      linesFuel width sep fuel items ≠ .panic := by
  intro fuel
  induction fuel with
  | zero => intro items; simp [linesFuel]
  | succ n ih =>
    intro items
    simp only [linesFuel]
    split
    · rename_i hp
      exact absurd hp (nextAux_ne_panic width sep hw items [] 0)
    · simp
    · rename_i l rest _
      split
      · simp
      · exact ih rest

/-- The width `User::respond_lines` passes to `partition_response`. -/
def respondLinesWidth : Nat := 360

/-- The separator `User::respond_lines` passes to `partition_response`. -/
def respondLinesSep : Str := str " | "

/-- `User::respond_lines` (`irc.rs` lines 1149–1168): partition at width
360 with separator `" | "`; send the single line, or the first line with a
`"... N line(s) not shown"` suffix, or the caller-supplied empty-state
message.  `none` would mean the partitioning panicked or ran out of fuel. -/
def respond_lines (items : List Str) (empty : Str) : Option Str :=
  match linesFuel respondLinesWidth respondLinesSep (items.length + 1) items with
  | .ok [] => some empty
  | .ok (l :: rest) =>
    if 0 < rest.length then
      some (l ++ str " ... " ++ (Nat.repr rest.length).data ++
        str " line(s) not shown")
    else some l
  | _ => none

/-- C10: the truncation branch computes `width - 3` in unsigned arithmetic.
For `width ≥ 3` no call to `next` can panic, from any reachable loop state;
for `width < 3`, an item longer than `width` arriving on an empty line hits
the underflow and panics; and the engine's only call site, `respond_lines`,
always partitions at width 360, so it always produces a response. -/
theorem C10_truncation_underflow (width : Nat) (sep : Str) :
    (3 ≤ width →
      ∀ (items : List Str) (lineBuf : Str) (len : Nat),
        nextAux width sep items lineBuf len ≠ .panic) ∧
    (width < 3 →
      ∀ (item : Str) (rest : List Str), width < blen item →
        pnext width sep (item :: rest) = .panic) ∧
    (∀ (items : List Str) (empty : Str),
      (respond_lines items empty).isSome = true) := by
  refine ⟨fun hw => nextAux_ne_panic width sep hw, ?_, ?_⟩
  · intro hw item rest hitem
    simp only [pnext, nextAux]
    rw [if_neg (by omega)]
    simp [hw]
  · intro items empty
    unfold respond_lines
    have hfuel := linesFuel_ne_fuelOut respondLinesWidth respondLinesSep
      (items.length + 1) items (by omega)
    have hpanic := linesFuel_ne_panic respondLinesWidth respondLinesSep
      (by decide) (items.length + 1) items
    rcases hls : linesFuel respondLinesWidth respondLinesSep
        (items.length + 1) items with _ | _ | ls
    · exact absurd hls hpanic
    · exact absurd hls hfuel
    · cases ls with
      | nil => simp
      | cons l rest => dsimp only; split <;> simp

/-- Witness for `C10_truncation_underflow`: at width 5 a partition call does
not panic; at width 2 a 3-byte item on an empty line panics; `respond_lines`
produces a response. -/
theorem C10_witness :
    nextAux 5 (str " | ") [str "abcdef"] [] 0 ≠ NextRes.panic ∧
    pnext 2 (str " | ") [str "abc"] = NextRes.panic ∧
    (respond_lines [str "a"] (str "empty")).isSome = true :=
  ⟨(C10_truncation_underflow 5 (str " | ")).1 (by decide) [str "abcdef"] [] 0,
   (C10_truncation_underflow 2 (str " | ")).2.1 (by decide) (str "abc") []
     (by decide),
   (C10_truncation_underflow respondLinesWidth (str " | ")).2.2 [str "a"]
     (str "empty")⟩

/-- C8 counterexample: at width 10, an item of twelve two-byte characters
(wider than the width limit both in bytes, 24, and in characters, 12)
arriving on an empty line is emitted as a line of 9 bytes (6 characters) —
not *exactly* `width` — because the byte offset `width - 3 = 7` is not a
character boundary of the item and the truncation point backs up to one. -/
theorem C8_counterexample :
    10 < blen (List.replicate 12 'α') ∧
    10 < (List.replicate 12 'α').length ∧
    pnext 10 (str " | ") [List.replicate 12 'α'] =
      NextRes.line (List.replicate 3 'α' ++ tail3) [] ∧
    blen (List.replicate 3 'α' ++ tail3) ≠ 10 ∧
    (List.replicate 3 'α' ++ tail3).length ≠ 10 := by decide

/-- C8 amended: an item wider than `width` (bytes) arriving on an empty line
is emitted as its own line, consisting of the longest character-boundary
prefix of at most `width - 3` bytes followed by the three-byte ellipsis; the
line is at most `width` bytes, the truncation point is always a character
boundary, and the line is exactly `width` bytes precisely when byte offset
`width - 3` is a character boundary of the item (in particular, always for
ASCII items). -/
theorem C8_oversized_item_truncated
    (width : Nat) (sep : Str) (item : Str) (rest : List Str)
    (hw : 3 ≤ width) (hitem : width < blen item) :
    pnext width sep (item :: rest) =
      NextRes.line (prefixUpTo item (width - 3) ++ tail3) rest ∧
    blen (prefixUpTo item (width - 3) ++ tail3) ≤ width ∧
    isBoundary item (blen (prefixUpTo item (width - 3))) = true ∧
    (isBoundary item (width - 3) = true →
      blen (prefixUpTo item (width - 3) ++ tail3) = width) := by
  have hb3 : blen tail3 = 3 := by decide
  refine ⟨?_, ?_, isBoundary_blen_prefixUpTo item (width - 3), ?_⟩
  · simp only [pnext, nextAux]
    rw [if_neg (by omega)]
    simp [show ¬ width < 3 from by omega]
  · rw [blen_append, hb3]
    have := blen_prefixUpTo_le item (width - 3)
    omega
  · intro hbd
    rw [blen_append, hb3, blen_prefixUpTo_of_isBoundary item (width - 3) hbd]
    omega

/-- Witness for `C8_oversized_item_truncated` at the concrete oversized
item of `C8_counterexample`. -/
theorem C8_witness :
    pnext 10 (str " | ") [List.replicate 12 'α'] =
      NextRes.line (prefixUpTo (List.replicate 12 'α') (10 - 3) ++ tail3) [] ∧
    blen (prefixUpTo (List.replicate 12 'α') (10 - 3) ++ tail3) ≤ 10 ∧
    isBoundary (List.replicate 12 'α')
      (blen (prefixUpTo (List.replicate 12 'α') (10 - 3))) = true ∧
    (isBoundary (List.replicate 12 'α') (10 - 3) = true →
      blen (prefixUpTo (List.replicate 12 'α') (10 - 3) ++ tail3) = 10) :=
  C8_oversized_item_truncated 10 (str " | ") (List.replicate 12 'α') []
    (by decide) (by decide)

/-!  ## Moderator/VIP list parsing (`parse_room_members`, `irc.rs` 1389–1407)  -/

/-- `message.find(':')` followed by taking the suffix `message[(index+1)..]`:
the part of the message after the first colon, if any. -/
def afterFirstColon : Str → Option Str
  | [] => none
  | c :: cs => if c = ':' then some cs else afterFirstColon cs

/-- `parse_room_members` (`irc.rs` lines 1389–1407): everything after the
first colon, trailing periods stripped, split on commas, each entry trimmed,
empty entries dropped, collected into a set. -/
def parse_room_members (message : Str) : Finset Str :=
  match afterFirstColon message with
  | none => ∅
  | some rest =>
    (((splitOnChar ',' (dropTrailingDots rest)).map trim).filter
      (fun s => s ≠ [])).toFinset

theorem afterFirstColon_append (pre rest : Str) (h : ':' ∉ pre) :
    afterFirstColon (pre ++ ':' :: rest) = some rest := by
  induction pre with
  | nil => simp [afterFirstColon]
  | cons c cs ih =>
    simp only [List.cons_append, afterFirstColon]
    rw [if_neg (by rintro rfl; exact h (List.mem_cons_self _ _))]
    exact ih (fun hm => h (List.mem_cons_of_mem _ hm))

theorem splitOnChar_of_not_mem (c : Char) (s : Str) (h : c ∉ s) :
    splitOnChar c s = [s] := by
  induction s with
  | nil => rfl
  | cons x xs ih =>
    have hx : ¬ x = c := by rintro rfl; exact h (List.mem_cons_self _ _)
    have hxs := ih (fun hm => h (List.mem_cons_of_mem _ hm))
    simp [splitOnChar, hx, hxs]

theorem splitOnChar_append (c : Char) (a b : Str) (h : c ∉ a) :
    splitOnChar c (a ++ c :: b) = a :: splitOnChar c b := by
  induction a with
  | nil => simp [splitOnChar]
  | cons x xs ih =>
    have hx : ¬ x = c := by rintro rfl; exact h (List.mem_cons_self _ _)
    have hxs := ih (fun hm => h (List.mem_cons_of_mem _ hm))
    simp [splitOnChar, hx, hxs]

/-- The comma-joined freeform member list the server sends after the colon. -/
def joinComma : List Str → Str
  | [] => []
  | [e] => e
  | e :: e' :: es => e ++ ',' :: joinComma (e' :: es)

theorem joinComma_getLast (l : List Str)
    (h : ∀ e ∈ l, e.getLast? ≠ some '.') :
    (joinComma l).getLast? ≠ some '.' := by
  induction l with
  | nil => simp [joinComma]
  | cons e es ih =>
    cases es with
    | nil => simpa [joinComma] using h e (by simp)
    | cons e' es' =>
      simp only [joinComma]
      rw [List.getLast?_append]
      have htail : (',' :: joinComma (e' :: es')).getLast? ≠ some '.' := by
        cases hj : joinComma (e' :: es') with
        | nil => simp
        | cons x xs =>
          rw [List.getLast?_cons_cons]
          have := ih (fun x hx => h x (List.mem_cons_of_mem _ hx))
          rwa [hj] at this
      cases hg : (',' :: joinComma (e' :: es')).getLast? with
      | none => simpa using h e (List.mem_cons_self _ _)
      | some x =>
        rw [hg] at htail
        simpa using htail

theorem dropTrailingDots_eq_self (s : Str) (h : s.getLast? ≠ some '.') :
    dropTrailingDots s = s := by
  unfold dropTrailingDots
  cases hr : s.reverse with
  | nil =>
    have : s = [] := by simpa using congrArg List.reverse hr
    subst this
    rfl
  | cons c t =>
    have hc : ¬ c = '.' := by
      have hh : s.reverse.head? = some c := by rw [hr]; rfl
      rw [List.head?_reverse] at hh
      rintro rfl
      exact h hh
    rw [List.dropWhile_cons]
    simp only [decide_eq_true_eq, hc, if_false]
    rw [← hr, List.reverse_reverse]

theorem splitOnChar_joinComma (l : List Str) (hl : l ≠ [])
    (h : ∀ e ∈ l, ',' ∉ e) :
    splitOnChar ',' (joinComma l) = l := by
  induction l with
  | nil => exact absurd rfl hl
  | cons e es ih =>
    cases es with
    | nil => exact splitOnChar_of_not_mem ',' e (h e (by simp))
    | cons e' es' =>
      simp only [joinComma]
      rw [splitOnChar_append ',' e _ (h e (by simp))]
      rw [ih (by simp) (fun x hx => h x (List.mem_cons_of_mem _ hx))]

/-- Characterisation of `parse_room_members` on a well-formed notice: the
set of trimmed, non-empty entries. -/
theorem parse_room_members_join (pre : Str) (l : List Str)
    (hpre : ':' ∉ pre)
    (hent : ∀ e ∈ l, ',' ∉ e ∧ e.getLast? ≠ some '.') :
    parse_room_members (pre ++ ':' :: joinComma l) =
      ((l.map trim).filter (fun s => s ≠ [])).toFinset := by
  unfold parse_room_members
  rw [afterFirstColon_append pre _ hpre]
  cases l with
  | nil => simp [joinComma, dropTrailingDots, splitOnChar, trim, trimStart,
      trimEnd]
  | cons e es =>
    dsimp only
    rw [dropTrailingDots_eq_self _
      (joinComma_getLast _ (fun x hx => (hent x hx).2))]
    rw [splitOnChar_joinComma _ (by simp) (fun x hx => (hent x hx).1)]

/-- C9: member-list parsing yields a set and is order-independent — two
member lists that are permutations of each other parse to the same set; a
list with no names after the colon parses to the empty set; and parsing
strips the trailing period, trims per-entry whitespace, and drops empty
entries (shown on a concrete notice). -/
theorem C9_parse_room_members_order_independent
    (pre : Str) (l₁ l₂ : List Str)
    (hpre : ':' ∉ pre)
    (hent : ∀ e ∈ l₁, ',' ∉ e ∧ e.getLast? ≠ some '.')
    (hperm : l₁.Perm l₂) :
    parse_room_members (pre ++ ':' :: joinComma l₁) =
      parse_room_members (pre ++ ':' :: joinComma l₂) ∧
    parse_room_members (pre ++ [':']) = ∅ ∧
    parse_room_members
        (str "The moderators of this channel are: foo ,  , bar.") =
      {str "foo", str "bar"} := by
  refine ⟨?_, ?_, by decide⟩
  · have hent₂ : ∀ e ∈ l₂, ',' ∉ e ∧ e.getLast? ≠ some '.' :=
      fun e he => hent e (hperm.mem_iff.mpr he)
    rw [parse_room_members_join pre l₁ hpre hent,
      parse_room_members_join pre l₂ hpre hent₂]
    have hp : ((l₁.map trim).filter (fun s => s ≠ [])).Perm
        ((l₂.map trim).filter (fun s => s ≠ [])) :=
      (hperm.map trim).filter _
    exact Finset.ext fun a => by
      simp only [List.mem_toFinset]
      exact hp.mem_iff
  · have := parse_room_members_join pre [] hpre (by simp)
    simpa [joinComma] using this

/-- Witness for `C9_parse_room_members_order_independent` on the spec's own
example: `"... are: foo, bar"` versus `"... are: bar, foo"`. -/
theorem C9_witness :
    parse_room_members (str "The moderators of this channel are" ++ ':' ::
        joinComma [str " foo", str " bar"]) =
      parse_room_members (str "The moderators of this channel are" ++ ':' ::
        joinComma [str " bar", str " foo"]) ∧
    parse_room_members (str "The moderators of this channel are" ++ [':']) =
      ∅ ∧
    parse_room_members
        (str "The moderators of this channel are: foo ,  , bar.") =
      {str "foo", str "bar"} :=
  C9_parse_room_members_order_independent
    (str "The moderators of this channel are")
    [str " foo", str " bar"] [str " bar", str " foo"]
    (by decide) (by decide)
    (List.Perm.swap (str " bar") (str " foo") [])

/-!  ## Alias expansion (`Handler::process_message` 736–758, `Alias::matches`)  -/

/-- One alias of the per-channel alias table (`db::aliases::Alias`): its
channel, its name (stored lower-case by `Key::new`), and its template,
rendered against the rest of the message
(`template::Template::render_to_string`, which may fail — a failed render
makes `Alias::matches` return no match). -/
structure AliasEntry where
  channel : Str
  name : Str
  template : Str → Option Str

/-- `Alias::matches` (`db/aliases.rs` lines 267–288): if the message has a
leading token and its lower-casing equals the alias name, render the
template against the rest of the message. -/
def aliasMatches (a : AliasEntry) (message : Str) : Option Str :=
  let tok := firstToken message
  if tok ≠ [] ∧ lowerStr tok = a.name then a.template (restAfterFirst message)
  else none

/-- One step of `Aliases::lookup` for a single table entry: the channel
filter, then `Alias::matches`.
`Modelled from the spec:` `db::Aliases::resolve` as called from
`process_message` is not part of the provided sources (only the older
`Aliases::lookup` / `Alias::matches` are); per §4.4 the **alias name** is
what is recorded in the expansion path, so a match yields the alias name
and the rendered replacement. -/
def resolveEntry (channel message : Str) (a : AliasEntry) : Option (Str × Str) :=
  if a.channel = channel then
    match aliasMatches a message with
    | some out => some (a.name, out)
    | none => none
  else none

/-- `Aliases::resolve`: the first matching alias of the channel.
`Modelled from the spec:` see `resolveEntry`. -/
def resolve (table : List AliasEntry) (channel message : Str) :
    Option (Str × Str) :=
  table.findSome? (resolveEntry channel message)

/-- Outcome of the alias-expansion loop of `Handler::process_message`:
the fully expanded message together with the expansion path, or a cycle
with the path as reported. -/
inductive ExpandResult where
  | done (message : Str) (path : List Str)
  | cycle (path : List Str)
deriving DecidableEq

/-- The alias-expansion `while let` loop of `Handler::process_message`
(`irc.rs` lines 736–758), with explicit fuel (the Rust loop is unbounded;
`expandFuel_isSome` below proves the fuel below never runs out, i.e. the
loop terminates).  The path records each matched name *before* the
seen-set test, exactly as the source pushes onto `path` before
`seen.insert`. -/
def expandFuel (table : List AliasEntry) (channel : Str) :
    Nat → Str → Finset Str → List Str → Option ExpandResult
  | 0, _, _, _ => none
  | n + 1, message, seen, path =>
    match resolve table channel message with
    | none => some (.done message path)
    | some (key, next) =>
      if key ∈ seen then some (.cycle (path ++ [key]))
      else expandFuel table channel n next (insert key seen) (path ++ [key])

/-- Fuel that always suffices: one more than the number of distinct alias
names in the table. -/
def aliasFuel (table : List AliasEntry) : Nat :=
  (table.map AliasEntry.name).toFinset.card + 1

/-- The alias-expansion stage on one message, as `process_message` runs it:
`seen` and `path` start empty. -/
def expandAliases (table : List AliasEntry) (channel message : Str) :
    Option ExpandResult :=
  expandFuel table channel (aliasFuel table) message ∅ []

/-- Rendering of `path.join(" -> ")`. -/
def joinArrow : List Str → Str
  | [] => []
  | [e] => e
  | e :: e' :: es => e ++ str " -> " ++ joinArrow (e' :: es)

/-- The user-visible cycle report of `process_message`:
`"Recursion found in alias expansion: {path} :("`. -/
def cycleResponse (path : List Str) : Str :=
  str "Recursion found in alias expansion: " ++ joinArrow path ++ str " :("

/-- What the alias stage of `process_message` does with one message: pass
the expanded text on (`some m`) with no responses, or abort this message
(`none`) responding with the cycle report. -/
def aliasStage (table : List AliasEntry) (channel message : Str) :
    Option (Option Str × List Str) :=
  match expandAliases table channel message with
  | none => none
  | some (.done m _) => some (some m, [])
  | some (.cycle p) => some (none, [cycleResponse p])

/-- `findSome?` succeeds only through some member of the list. -/
theorem findSome?_exists {α β : Type} (f : α → Option β) (l : List α) (b : β)
    (h : l.findSome? f = some b) : ∃ a ∈ l, f a = some b := by
  induction l with
  | nil => cases h
  | cons x xs ih =>
    simp only [List.findSome?] at h
    cases hfx : f x with
    | none =>
      rw [hfx] at h
      obtain ⟨a, hmem, ha⟩ := ih h
      exact ⟨a, List.mem_cons_of_mem _ hmem, ha⟩
    | some b' =>
      rw [hfx] at h
      cases h
      exact ⟨x, List.mem_cons_self _ _, hfx⟩

/-- A resolved key is the name of some table entry. -/
theorem resolve_name_mem (table : List AliasEntry) (ch msg k nxt : Str)
    (h : resolve table ch msg = some (k, nxt)) :
    k ∈ table.map AliasEntry.name := by
  obtain ⟨a, hmem, ha⟩ := findSome?_exists _ _ _ h
  have hk : k = a.name := by
    unfold resolveEntry at ha
    split at ha
    · split at ha
      · cases ha; rfl
      · cases ha
    · cases ha
  subst hk
  exact List.mem_map_of_mem _ hmem

/-- The fuel `aliasFuel` never runs out: the expansion loop terminates. -/
theorem expandFuel_isSome (table : List AliasEntry) (ch : Str) :
    ∀ (fuel : Nat) (message : Str) (seen : Finset Str) (path : List Str),
      ((table.map AliasEntry.name).toFinset \ seen).card < fuel →
      expandFuel table ch fuel message seen path ≠ none := by
  intro fuel
  induction fuel with
  | zero => intro m s p h; omega
  | succ n ih =>
    intro m s p h
    simp only [expandFuel]
    cases hr : resolve table ch m with
    | none => simp
    | some kv =>
      obtain ⟨k, nxt⟩ := kv
      dsimp only
      split
      · simp
      · rename_i hk
        apply ih
        have hkN : k ∈ (table.map AliasEntry.name).toFinset := by
          rw [List.mem_toFinset]
          exact resolve_name_mem table ch m k nxt hr
        have hmem : k ∈ (table.map AliasEntry.name).toFinset \ s :=
          Finset.mem_sdiff.mpr ⟨hkN, hk⟩
        have hsub : (table.map AliasEntry.name).toFinset \ insert k s ⊆
            (table.map AliasEntry.name).toFinset \ s := by
          intro x hx
          rcases Finset.mem_sdiff.mp hx with ⟨h1, h2⟩
          exact Finset.mem_sdiff.mpr
            ⟨h1, fun hxs => h2 (Finset.mem_insert_of_mem hxs)⟩
        have hss : (table.map AliasEntry.name).toFinset \ insert k s ⊂
            (table.map AliasEntry.name).toFinset \ s :=
          (Finset.ssubset_iff_of_subset hsub).mpr
            ⟨k, hmem, fun hx =>
              (Finset.mem_sdiff.mp hx).2 (Finset.mem_insert_self _ _)⟩
        have := Finset.card_lt_card hss
        omega

/-- On a cycle, the reported path ends with the repeated name and contains
an earlier occurrence of it. -/
theorem expandFuel_cycle_path (table : List AliasEntry) (ch : Str) :
    ∀ (fuel : Nat) (message : Str) (seen : Finset Str) (path p : List Str),
      expandFuel table ch fuel message seen path = some (.cycle p) →
      (∀ k ∈ seen, k ∈ path) →
      ∃ k, p.getLast? = some k ∧ k ∈ p.dropLast := by
  intro fuel
  induction fuel with
  | zero => intro m s path p h _; cases h
  | succ n ih =>
    intro m s path p h hinv
    simp only [expandFuel] at h
    cases hr : resolve table ch m with
    | none =>
      rw [hr] at h
      cases h
    | some kv =>
      obtain ⟨k, nxt⟩ := kv
      rw [hr] at h
      dsimp only at h
      split at h
      · rename_i hk
        cases h
        refine ⟨k, ?_, ?_⟩
        · simp
        · rw [List.dropLast_concat]
          exact hinv k hk
      · rename_i hk
        exact ih nxt (insert k s) (path ++ [k]) p h (by
          intro x hx
          rcases Finset.mem_insert.mp hx with rfl | hx'
          · simp
          · exact List.mem_append_left _ (hinv x hx'))

/-- C3: alias expansion always terminates: a chain without a repeated alias
name runs to completion and hands the final rendered text on to the rest of
the pipeline with no response; a chain with a repeated name aborts that
message, responding with the full expansion path, and the reported path
contains the repeated name both at its end and at an earlier position. -/
theorem C3_alias_expansion_terminates
    (table : List AliasEntry) (channel message : Str) :
    (∃ r, expandAliases table channel message = some r) ∧
    (∀ m p, expandAliases table channel message = some (.done m p) →
      aliasStage table channel message = some (some m, [])) ∧
    (∀ p, expandAliases table channel message = some (.cycle p) →
      aliasStage table channel message = some (none, [cycleResponse p]) ∧
      ∃ k, p.getLast? = some k ∧ k ∈ p.dropLast) := by
  have hterm := expandFuel_isSome table channel (aliasFuel table) message ∅ []
    (by simp [aliasFuel])
  refine ⟨?_, ?_, ?_⟩
  · cases h : expandAliases table channel message with
    | none => exact absurd h hterm
    | some r => exact ⟨r, rfl⟩
  · intro m p h
    unfold aliasStage
    rw [h]
  · intro p h
    refine ⟨by unfold aliasStage; rw [h], ?_⟩
    exact expandFuel_cycle_path table channel (aliasFuel table) message ∅ [] p
      h (by simp)

/-- Witness for `C3_alias_expansion_terminates`: the two-alias cycle
`a → "b …"`, `b → "a …"` starting from message `"a"`, which aborts with
path `a -> b -> a`; and a one-alias chain `c → "done"` that terminates. -/
theorem C3_witness :
    (∃ r,
      expandAliases
        [⟨str "chan", str "a", fun _ => some (str "b")⟩,
         ⟨str "chan", str "b", fun _ => some (str "a")⟩]
        (str "chan") (str "a") = some r) ∧
    (aliasStage
        [⟨str "chan", str "a", fun _ => some (str "b")⟩,
         ⟨str "chan", str "b", fun _ => some (str "a")⟩]
        (str "chan") (str "a") =
      some (none, [cycleResponse [str "a", str "b", str "a"]]) ∧
      ∃ k, ([str "a", str "b", str "a"] : List Str).getLast? = some k ∧
        k ∈ ([str "a", str "b", str "a"] : List Str).dropLast) :=
  ⟨(C3_alias_expansion_terminates
      [⟨str "chan", str "a", fun _ => some (str "b")⟩,
       ⟨str "chan", str "b", fun _ => some (str "a")⟩]
      (str "chan") (str "a")).1,
   (C3_alias_expansion_terminates
      [⟨str "chan", str "a", fun _ => some (str "b")⟩,
       ⟨str "chan", str "b", fun _ => some (str "a")⟩]
      (str "chan") (str "a")).2.2 [str "a", str "b", str "a"] (by decide)⟩

/-!  ## Keepalive and the pong-timeout fuse (`IrcLoop::run`, `irc.rs` 320–424)  -/

/-- The resettable one-shot timer (`Fuse`): empty, or armed with an
absolute deadline in seconds. -/
inductive Fuse where
  | empty
  | armed (deadline : Nat)
deriving DecidableEq

/-- Outbound protocol commands the liveness fragment emits. -/
inductive IrcCmd where
  | ping
  | pong
deriving DecidableEq

/-- The period of `ping_interval` (`tokio::time::interval` of 10 s,
`irc.rs` line 320). -/
def pingIntervalSecs : Nat := 10

/-- The pong-timeout `Handler::send_ping` arms (5 s sleep, `irc.rs` 703–704). -/
def pongTimeoutSecs : Nat := 5

/-- The liveness-relevant state of the event loop: current time, the
`pong_timeout` fuse, and what was sent. -/
structure LoopState where
  now : Nat
  pong_timeout : Fuse
  sent : List IrcCmd
deriving DecidableEq

/-- The fatal session error from the pong-timeout arm
(`bail!("server not responding")`). -/
inductive SessionErr where
  | serverNotResponding
deriving DecidableEq

/-- `Handler::send_ping`: send a `PING` immediately and (re)arm the
pong-timeout fuse `pongTimeoutSecs` from now. -/
def send_ping (s : LoopState) : LoopState :=
  { s with
    sent := s.sent ++ [IrcCmd.ping]
    pong_timeout := Fuse.armed (s.now + pongTimeoutSecs) }

/-- The event sources of the `tokio::select!` loop that the liveness claim
concerns: the periodic keepalive tick, an inbound `PONG`, and the armed
fuse elapsing. -/
inductive LoopEvent where
  | tick
  | pongReceived
  | fuseFired
deriving DecidableEq

/-- When an event source can complete: the fuse arm only wins the select
when the fuse is armed and its deadline has passed (an empty `Fuse` is
forever pending). -/
def eventValid (s : LoopState) : LoopEvent → Prop
  | .tick => True
  | .pongReceived => True
  | .fuseFired => ∃ d, s.pong_timeout = Fuse.armed d ∧ d ≤ s.now

/-- The select arms of `IrcLoop::run` for those events: a tick runs
`send_ping`; an inbound `PONG` clears the fuse (`Handler::handle`,
`Command::PONG` branch) and the session continues; the fuse firing ends
the session with the liveness error. -/
def loopStep (s : LoopState) : LoopEvent → Except SessionErr LoopState
  | .tick => .ok (send_ping s)
  | .pongReceived => .ok { s with pong_timeout := Fuse.empty }
  | .fuseFired => .error SessionErr.serverNotResponding

/-- C4: the keepalive tick (every 10 s) sends a probe and arms the 5 s
pong-timeout fuse; if the armed fuse elapses before a reply, the session
ends with the liveness error; if a `PONG` arrives first, the fuse is
cleared and the session continues, and a cleared fuse can never fire. -/
theorem C4_keepalive_fuse (s : LoopState) :
    pingIntervalSecs = 10 ∧ pongTimeoutSecs = 5 ∧
    (∀ s', loopStep s .tick = .ok s' →
      s'.sent = s.sent ++ [IrcCmd.ping] ∧
      s'.pong_timeout = Fuse.armed (s.now + pongTimeoutSecs)) ∧
    (eventValid s .fuseFired →
      loopStep s .fuseFired = .error SessionErr.serverNotResponding) ∧
    (∀ s', loopStep s .pongReceived = .ok s' →
      s'.pong_timeout = Fuse.empty ∧ s'.sent = s.sent) ∧
    (s.pong_timeout = Fuse.empty → ¬ eventValid s .fuseFired) := by
  refine ⟨rfl, rfl, ?_, fun _ => rfl, ?_, ?_⟩
  · intro s' h
    cases h
    exact ⟨rfl, rfl⟩
  · intro s' h
    cases h
    exact ⟨rfl, rfl⟩
  · intro he hv
    obtain ⟨d, hd, _⟩ := hv
    rw [he] at hd
    cases hd

/-- Witness for `C4_keepalive_fuse` at a concrete state: a tick at time 0
arms the fuse for time 5; the armed fuse firing errors; a pong clears. -/
theorem C4_witness :
    pingIntervalSecs = 10 ∧ pongTimeoutSecs = 5 ∧
    (∀ s', loopStep ⟨0, Fuse.empty, []⟩ .tick = .ok s' →
      s'.sent = ([] : List IrcCmd) ++ [IrcCmd.ping] ∧
      s'.pong_timeout = Fuse.armed (0 + pongTimeoutSecs)) ∧
    (eventValid ⟨0, Fuse.empty, []⟩ .fuseFired →
      loopStep ⟨0, Fuse.empty, []⟩ .fuseFired =
        .error SessionErr.serverNotResponding) ∧
    (∀ s', loopStep ⟨0, Fuse.empty, []⟩ .pongReceived = .ok s' →
      s'.pong_timeout = Fuse.empty ∧ s'.sent = []) ∧
    (Fuse.empty = Fuse.empty → ¬ eventValid ⟨0, Fuse.empty, []⟩ .fuseFired) :=
  C4_keepalive_fuse ⟨0, Fuse.empty, []⟩

/-!  ## Connection supervisor and backoff (`Irc::run`, `irc.rs` 49–85)  -/

/-- `backoff::ExponentialBackoff` (the `backoff` crate, an external
dependency of `Irc::run`); intervals are milliseconds, as rationals. -/
structure ExponentialBackoff where
  current_interval : ℚ
  initial_interval : ℚ
  randomization_factor : ℚ
  multiplier : ℚ
  max_interval : ℚ
  max_elapsed_time : Option ℚ
deriving DecidableEq

/-- `ExponentialBackoff::default()` per the `backoff` crate: initial
interval 500 ms, randomization factor 0.5, multiplier 1.5, max interval
60 000 ms, max elapsed time 900 000 ms. -/
def backoffDefault : ExponentialBackoff :=
  { current_interval := 500
    initial_interval := 500
    randomization_factor := 1 / 2
    multiplier := 3 / 2
    max_interval := 60000
    max_elapsed_time := some 900000 }

/-- The backoff as configured by `Irc::run` (`irc.rs` lines 56–59):
current and initial interval 5 s and no overall elapsed-time limit; every
other field — including the 60 s `max_interval` — keeps its crate default. -/
def ircBackoff : ExponentialBackoff :=
  { backoffDefault with
    current_interval := 5000
    initial_interval := 5000
    max_elapsed_time := none }

/-- `Backoff::next_backoff` of the `backoff` crate for a configuration with
`max_elapsed_time = None` (so it never yields `None`): the delay returned is
the current interval (the crate actually sleeps a uniformly random duration
within `randomization_factor` of it; we take the nominal value), and the
current interval then advances by the multiplier, capped at `max_interval`. -/
def next_backoff (b : ExponentialBackoff) : ℚ × ExponentialBackoff :=
  (b.current_interval,
   { b with
     current_interval :=
      if b.max_interval / b.multiplier ≤ b.current_interval then b.max_interval
      else b.current_interval * b.multiplier })

/-- `Backoff::reset`: back to the initial interval. -/
def ExponentialBackoff.reset (b : ExponentialBackoff) : ExponentialBackoff :=
  { b with current_interval := b.initial_interval }

/-- The result of one `IrcLoop::run` session as the supervisor sees it. -/
inductive SessionOutcome where
  | ok
  | err
deriving DecidableEq

/-- One iteration of the supervisor loop in `Irc::run`: on session success
reset the backoff and retry immediately (no sleep); on failure sleep the
next backoff delay, then retry. -/
def supervisorStep (b : ExponentialBackoff) :
    SessionOutcome → Option ℚ × ExponentialBackoff
  | .ok => (none, b.reset)
  | .err => (some (next_backoff b).1, (next_backoff b).2)

/-- The backoff state after `n` consecutive failed sessions. -/
def nthBackoff : Nat → ExponentialBackoff
  | 0 => ircBackoff
  | n + 1 => (next_backoff (nthBackoff n)).2

/-- The nominal delay slept after the `n + 1`-st consecutive failure. -/
def nthDelay (n : Nat) : ℚ := (next_backoff (nthBackoff n)).1

/-- C5 counterexample: backoff growth is **not** uncapped.  `Irc::run`
overrides the initial/current interval and the overall elapsed-time limit
but leaves the crate's default `max_interval` of 60 s, so after the 8th
consecutive failure the nominal delay freezes at 60 000 ms: the 8th and 9th
delays are equal, refuting unbounded growth. -/
theorem C5_counterexample :
    nthDelay 7 = 60000 ∧ nthDelay 8 = 60000 ∧ ¬ nthDelay 7 < nthDelay 8 ∧
    ircBackoff.max_interval = 60000 := by
  norm_num [nthDelay, nthBackoff, next_backoff, ircBackoff, backoffDefault]

/-- All fields of the supervisor's backoff state after `n` failures: the
configuration fields are constant, and the current interval stays within
`[5000 ms, 60000 ms]`. -/
theorem nthBackoff_fields (n : Nat) :
    (nthBackoff n).initial_interval = 5000 ∧
    (nthBackoff n).multiplier = 3 / 2 ∧
    (nthBackoff n).max_interval = 60000 ∧
    (nthBackoff n).max_elapsed_time = none ∧
    5000 ≤ (nthBackoff n).current_interval ∧
    (nthBackoff n).current_interval ≤ 60000 := by
  induction n with
  | zero =>
    refine ⟨rfl, rfl, rfl, rfl, by norm_num [nthBackoff, ircBackoff,
      backoffDefault], by norm_num [nthBackoff, ircBackoff, backoffDefault]⟩
  | succ n ih =>
    obtain ⟨h1, h2, h3, h4, h5, h6⟩ := ih
    simp only [nthBackoff, next_backoff]
    rw [h2, h3]
    refine ⟨h1, rfl, rfl, h4, ?_, ?_⟩
    · split
      · norm_num
      · nlinarith
    · split
      · norm_num
      · rename_i hlt
        rw [not_le] at hlt
        norm_num at hlt
        nlinarith

/-- C5 amended: on a session `Ok` the supervisor resets the backoff (the
next failure starts afresh from the initial interval) and retries
immediately with no sleep; on a session `Err` it sleeps the next
exponential-backoff delay and retries.  The initial and minimum nominal
interval is 5 s and there is no overall elapsed-time limit, but growth is
**capped**: `Irc::run` leaves the crate's default `max_interval` of 60 s in
place, so every nominal delay lies in `[5 s, 60 s]`. -/
theorem C5_backoff_schedule :
    ircBackoff.initial_interval = 5000 ∧
    ircBackoff.current_interval = 5000 ∧
    ircBackoff.max_elapsed_time = none ∧
    ircBackoff.max_interval = 60000 ∧
    (∀ b : ExponentialBackoff,
      supervisorStep b SessionOutcome.ok = (none, b.reset) ∧
      b.reset.current_interval = b.initial_interval ∧
      supervisorStep b SessionOutcome.err =
        (some b.current_interval, (next_backoff b).2)) ∧
    (∀ n : Nat, 5000 ≤ nthDelay n ∧ nthDelay n ≤ 60000) := by
  refine ⟨rfl, rfl, rfl, rfl, fun b => ⟨rfl, rfl, rfl⟩, fun n => ?_⟩
  have h := nthBackoff_fields n
  exact ⟨h.2.2.2.2.1, h.2.2.2.2.2⟩

end OxidizeBot
